import Mathlib

/-!
Verification of the Weisfeiler-Lehman walker (`pyrdf2vec/walkers/weisfeiler_lehman.py`).

The walker keeps two insertion-ordered hash tables (`_label_map`,
`_inv_label_map`, both Python `defaultdict(dict)`), relabels every graph
vertex across refinement levels `0..L` (`_weisfeiler_lehman`), and rewrites
raw walks into canonical walks (`_extract`).

Python dictionaries are modelled as insertion-ordered association lists:
`dset` updates a value in place when the key exists and appends otherwise,
exactly like `d[k] = v`; `dget` is `d.get(k)`.  The `defaultdict` read
`self._label_map[name][lvl]` is `lmGet`: the outer access inserts an empty
inner dict when `name` is absent (a genuine side effect) and the inner
access yields `none` (Python `KeyError`) when the level is absent.
The md5 digest-to-string step is an arbitrary parameter `H : String → String`
(`hashlib` is external to the repository); all results hold for every `H`.
-/

namespace PyRDF2Vec

/-- Insertion-ordered association list: the model of a Python `dict`. -/
abbrev Dict (α β : Type) := List (α × β)

/-- `d.get(k)`: first binding of `k`, if any. -/
def dget {α β : Type} [DecidableEq α] : Dict α β → α → Option β
  | [], _ => none
  | (k₀, v₀) :: d, k => if k = k₀ then some v₀ else dget d k

/-- `d[k] = v`: replace in place when `k` is present, append otherwise. -/
def dset {α β : Type} [DecidableEq α] : Dict α β → α → β → Dict α β
  | [], k, v => [(k, v)]
  | (k₀, v₀) :: d, k, v =>
      if k = k₀ then (k₀, v) :: d else (k₀, v₀) :: dset d k v

/-- Inner map of `_label_map`: refinement level → label. -/
abbrev LevelMap := Dict Nat String

/-- `_label_map`: vertex name → level → label. -/
abbrev LabelMap := Dict String LevelMap

/-- A Python value stored in `_inv_label_map`'s inner dicts, which are typed
`Dict[Any, Any]` in the source and really do mix `int` and `str` keys. -/
inductive PyVal where
  | int : Nat → PyVal
  | str : String → PyVal
deriving DecidableEq, Repr

/-- `_inv_label_map`: vertex name → (mixed-type key → mixed-type value). -/
abbrev InvMap := Dict String (Dict PyVal PyVal)

/-- The two table attributes of `WLWalker` (`_label_map`, `_inv_label_map`). -/
structure WLState where
  label_map : LabelMap
  inv_label_map : InvMap
deriving DecidableEq, Repr

/-- Both tables start as empty `defaultdict(dict)` at construction. -/
def WLState.empty : WLState := ⟨[], []⟩

/-- Graph collaborator interface (spec §6): the vertex set (`kg._vertices`,
iterated by name) and the predecessor lookup
(`kg.get_neighbors(vertex, is_reverse=True)`, read by name).  The `KG` class
itself is an external collaborator; the core reads nothing else from it. -/
structure KG where
  vertices : List String
  preds : String → List String

/-- Every predecessor reported by the graph is itself a graph vertex (the
graph collaborator's edges connect vertices of the graph). -/
def WFKG (kg : KG) : Prop :=
  ∀ v ∈ kg.vertices, ∀ p ∈ kg.preds v, p ∈ kg.vertices

instance (kg : KG) : Decidable (WFKG kg) := by
  unfold WFKG
  infer_instance

/-- `self._label_map[name][lvl]` as a read: outer `defaultdict` access
(inserting an empty row when `name` is absent) then inner dict lookup
(`none` = `KeyError` when the level is absent). -/
def lmGet (m : LabelMap) (name : String) (lvl : Nat) : Option String × LabelMap :=
  match dget m name with
  | some row => (dget row lvl, m)
  | none => (none, dset m name [])

/-- `self._tbl[name][k] = v` on a `defaultdict(dict)`: outer access creates
the row when missing, then the inner assignment. -/
def ddSet {κ ν : Type} [DecidableEq κ]
    (m : Dict String (Dict κ ν)) (name : String) (k : κ) (v : ν) :
    Dict String (Dict κ ν) :=
  dset m name (dset ((dget m name).getD []) k v)

/-- Pure two-level lookup (no `defaultdict` side effect), used to state
properties of the tables. -/
def lookup2 {κ ν : Type} [DecidableEq κ]
    (m : Dict String (Dict κ ν)) (name : String) (k : κ) : Option ν :=
  (dget m name).bind fun row => dget row k

/-- Code-point lexicographic `<=` on character lists — the order in which
Python's `sorted` ranks `str` values (and the order underlying Lean's own
`String` order), written as an explicitly computable Boolean. -/
def leChars : List Char → List Char → Bool
  | [], _ => true
  | _ :: _, [] => false
  | a :: as, b :: bs =>
      if a < b then true else if a = b then leChars as bs else false

/-- Code-point lexicographic `<=` on strings. -/
def strLe (a b : String) : Prop := leChars a.data b.data = true

instance : DecidableRel strLe := fun a b => by
  unfold strLe
  infer_instance

/-- `sorted(set(xs))` for strings: deduplicate, then sort in ascending
lexicographic order. -/
def sortedSet (l : List String) : List String :=
  List.insertionSort strLe l.dedup

/-- The list comprehension
`[self._label_map[neighbor.name][n - 1] for neighbor in kg.get_neighbors(vertex, is_reverse=True)]`:
left-to-right, stopping at the first `KeyError`, threading the
`defaultdict` side effects. -/
def predLabels (lvl : Nat) : LabelMap → List String → Option (List String) × LabelMap
  | m, [] => (some [], m)
  | m, p :: ps =>
    match lmGet m p lvl with
    | (none, m₁) => (none, m₁)
    | (some l, m₁) =>
      match predLabels lvl m₁ ps with
      | (none, m₂) => (none, m₂)
      | (some ls, m₂) => (some (l :: ls), m₂)

/-- Main path of `_create_label`: build the sorted-deduplicated suffix of
the predecessors' level-`(n-1)` labels, then return
`f"{self._label_map[vertex.name][n - 1]}-{suffix}"`.  (The
`if len(self._label_map) == 0` lazy trigger at the top of `_create_label`
is modelled separately in `createLabelLazy`; inside `_weisfeiler_lehman`
the level-0 loop has already populated the map before any call, so the
trigger branch cannot fire there.) -/
def createLabel (kg : KG) (m : LabelMap) (v : String) (n : Nat) :
    Option String × LabelMap :=
  match predLabels (n - 1) m (kg.preds v) with
  | (none, m₁) => (none, m₁)
  | (some ls, m₁) =>
    let suffix := String.intercalate "-" (sortedSet ls)
    match lmGet m₁ v (n - 1) with
    | (none, m₂) => (none, m₂)
    | (some own, m₂) => (some (own ++ "-" ++ suffix), m₂)

/-- First loop of `_weisfeiler_lehman`:
`self._label_map[vertex.name][0] = vertex.name` and
`self._inv_label_map[vertex.name][0] = vertex.name` for every vertex. -/
def wlInit : List String → WLState → WLState
  | [], st => st
  | v :: vs, st =>
      wlInit vs
        { label_map := ddSet st.label_map v 0 v
          inv_label_map := ddSet st.inv_label_map v (.int 0) (.str v) }

/-- Inner loop of the level pass:
`self._label_map[vertex.name][n] = str(md5(self._create_label(kg, vertex, n).encode()).digest())`
for each vertex in turn; a `KeyError` inside `_create_label` aborts the
whole pass. -/
def wlLevel (H : String → String) (kg : KG) (n : Nat) :
    List String → WLState → Option WLState
  | [], st => some st
  | v :: vs, st =>
    match createLabel kg st.label_map v n with
    | (none, _) => none
    | (some pre, m₁) =>
        wlLevel H kg n vs { st with label_map := ddSet m₁ v n (H pre) }

/-- `for n in range(1, self.wl_iterations + 1)`: run the level pass for each
level in the given list. -/
def wlLevels (H : String → String) (kg : KG) :
    List Nat → WLState → Option WLState
  | [], st => some st
  | n :: ns, st =>
    match wlLevel H kg n kg.vertices st with
    | none => none
    | some st₁ => wlLevels H kg ns st₁

/-- `for k, v in row: self._inv_label_map[name][v] = k` — invert one
vertex's level→label row into its inverse-table row. -/
def wlInvertRow (name : String) : InvMap → List (Nat × String) → InvMap
  | iv, [] => iv
  | iv, (k, s) :: items => wlInvertRow name (ddSet iv name (.str s) (.int k)) items

/-- Final loop of `_weisfeiler_lehman`: for every vertex, read its
`_label_map` row (a `defaultdict` access that creates an empty row when the
vertex is absent) and invert it into `_inv_label_map`. -/
def wlInvert : List String → WLState → WLState
  | [], st => st
  | v :: vs, st =>
    match dget st.label_map v with
    | some row =>
        wlInvert vs { st with inv_label_map := wlInvertRow v st.inv_label_map row }
    | none =>
        wlInvert vs { st with label_map := dset st.label_map v [] }

/-- `_weisfeiler_lehman(kg)`: level-0 initialization, the level passes for
`n` in `range(1, L + 1)`, then the inverse-table loop.  `none` models an
uncaught `KeyError`. -/
def weisfeilerLehman (H : String → String) (kg : KG) (L : Nat) (st : WLState) :
    Option WLState :=
  match wlLevels H kg (List.range' 1 L) (wlInit kg.vertices st) with
  | none => none
  | some st₁ => some (wlInvert kg.vertices st₁)

/-- Full `_create_label`, including the lazy trigger
`if len(self._label_map) == 0: self._weisfeiler_lehman(kg)` that precedes
the main path.  (Unused by `_weisfeiler_lehman` itself, where the trigger
condition is always false at call time.) -/
def createLabelLazy (H : String → String) (kg : KG) (L : Nat) (st : WLState)
    (v : String) (n : Nat) : Option (String × WLState) :=
  if st.label_map = [] then
    match weisfeilerLehman H kg L st with
    | none => none
    | some st₁ =>
      match createLabel kg st₁.label_map v n with
      | (none, _) => none
      | (some s, m) => some (s, { st₁ with label_map := m })
  else
    match createLabel kg st.label_map v n with
    | (none, _) => none
    | (some s, m) => some (s, { st with label_map := m })

/-- Innermost loop of `_extract`: build one canonical walk from the hops of
a raw walk, with the running index `i`; position `0` and odd positions copy
`hop.name`, even positions `> 0` read `self._label_map[hop.name][n]`
(threading the `defaultdict` side effect, `none` = `KeyError`). -/
def canonHops (n : Nat) : LabelMap → Nat → List String → Option (List String) × LabelMap
  | m, _, [] => (some [], m)
  | m, i, hop :: rest =>
    if i = 0 ∨ i % 2 = 1 then
      match canonHops n m (i + 1) rest with
      | (none, m₁) => (none, m₁)
      | (some c, m₁) => (some (hop :: c), m₁)
    else
      match lmGet m hop n with
      | (none, m₁) => (none, m₁)
      | (some lab, m₁) =>
        match canonHops n m₁ (i + 1) rest with
        | (none, m₂) => (none, m₂)
        | (some c, m₂) => (some (lab :: c), m₂)

/-- `canonical_walks.add(tuple(canonical_walk))`: Python set insertion,
modelled as an insertion-ordered duplicate-free list. -/
def addToSet (s : List (List String)) (c : List String) : List (List String) :=
  if c ∈ s then s else s ++ [c]

/-- `for walk in walks:` at one refinement level: canonicalize each raw walk
and add it to the set. -/
def canonLevel (n : Nat) :
    LabelMap → List (List String) → List (List String) →
      Option (List (List String)) × LabelMap
  | m, s, [] => (some s, m)
  | m, s, w :: ws =>
    match canonHops n m 0 w with
    | (none, m₁) => (none, m₁)
    | (some c, m₁) => canonLevel n m₁ (addToSet s c) ws

/-- `for n in range(self.wl_iterations + 1): for walk in walks: ...` -/
def canonLevels (walks : List (List String)) :
    LabelMap → List (List String) → List Nat →
      Option (List (List String)) × LabelMap
  | m, s, [] => (some s, m)
  | m, s, n :: ns =>
    match canonLevel n m s walks with
    | (none, m₁) => (none, m₁)
    | (some s₁, m₁) => canonLevels walks m₁ s₁ ns

/-- `_extract(kg, instance)` given the raw walks returned by the external
sampler (`self.extract_walks`): run the canonicalization loops and return
`{instance.name: tuple(canonical_walks)}`. -/
def wlExtract (m : LabelMap) (L : Nat) (walks : List (List String))
    (inst : String) :
    Option (List (String × List (List String))) × LabelMap :=
  match canonLevels walks m [] (List.range (L + 1)) with
  | (none, m₁) => (none, m₁)
  | (some s, m₁) => (some [(inst, s)], m₁)

/-- A Python object handed to the `WLWalker` constructor for
`wl_iterations`. -/
inductive PyObj where
  | int : Int → PyObj
  | str : String → PyObj
  | float : PyObj
  | pynone : PyObj
deriving DecidableEq, Repr

/-- The walker's own configuration attribute. -/
structure WLWalkerCfg where
  wl_iterations : Int
deriving DecidableEq, Repr

/-- `wl_iterations: int = attr.ib(kw_only=True, default=4,
validator=attr.validators.instance_of(int))`: an omitted keyword argument
takes the default `4`; `instance_of(int)` raises `TypeError` on any
non-`int` value and accepts every `int`. -/
def mkWLWalker : Option PyObj → Except String WLWalkerCfg
  | Option.none => .ok ⟨4⟩
  | some (.int n) => .ok ⟨n⟩
  | some _ => .error "TypeError"

/-- The value passed for `wl_iterations` is a positive integer. -/
def isPosInt : PyObj → Prop
  | .int n => 0 < n
  | _ => False

instance : DecidablePred isPosInt := fun o => by
  cases o <;> simp only [isPosInt] <;> infer_instance

/-- Pure reference labelling: `wlRef H kg n v` is the level-`n`
Weisfeiler-Lehman label of vertex `v` as a recursive function of the graph
alone. -/
def wlRef (H : String → String) (kg : KG) : Nat → String → String
  | 0, v => v
  | n + 1, v =>
      H (wlRef H kg n v ++ "-" ++
        String.intercalate "-" (sortedSet ((kg.preds v).map (wlRef H kg n))))

/-- All labels of the given vertices at one level, as a pure list lookup
(`mapM` over `lookup2`). -/
def labelsOf (m : LabelMap) (lvl : Nat) (ps : List String) :
    Option (List String) :=
  ps.mapM fun p => lookup2 m p lvl

/-- Pure effect of one level pass over the processed vertex list: write the
reference label at level `n` for each vertex, in order. -/
def applyLvl (H : String → String) (kg : KG) (n : Nat) (vs : List String)
    (m : LabelMap) : LabelMap :=
  vs.foldl (fun m v => ddSet m v n (wlRef H kg n v)) m

/-- The running inversion of one row's items into a dict accumulator —
the pure content of `for k, v in row: inv_row[v] = k`. -/
def invertRowItems (r : Dict PyVal PyVal) (row : List (Nat × String)) :
    Dict PyVal PyVal :=
  row.foldl (fun acc kv => dset acc (.str kv.2) (.int kv.1)) r

/-- Modelled from the spec: the Inverse Label Table row that §3 describes —
"precisely the inversion of that vertex's level-to-label mapping", i.e. a
dict holding exactly `label ↦ level` for the row's items and nothing else. -/
def specInvRow (row : List (Nat × String)) : Dict PyVal PyVal :=
  invertRowItems [] row

/-- A concrete stand-in for `str(md5(x.encode()).digest())` used in the
concrete witnesses below; every theorem above it holds for arbitrary `H`. -/
def H0 : String → String := fun s => "#" ++ s

/-- One isolated vertex. -/
def kgA : KG := ⟨["a"], fun _ => []⟩

/-- The empty graph. -/
def kgE : KG := ⟨[], fun _ => []⟩

/-- Three vertices with `c` having predecessors `a` and `b`, in that order. -/
def kgP1 : KG := ⟨["a", "b", "c"], fun v => if v = "c" then ["a", "b"] else []⟩

/-- Same graph as `kgP1` with `c`'s predecessors enumerated in the other
order. -/
def kgP2 : KG := ⟨["a", "b", "c"], fun v => if v = "c" then ["b", "a"] else []⟩

/-- A small concrete label table used by the canonicalization witnesses:
`"a"` has labels at levels 0 and 1, `"p"` at level 0. -/
def mW : LabelMap := [("a", [(0, "a"), (1, "x")]), ("p", [(0, "p")])]

/-! ### Dictionary lemmas -/

theorem dget_dset_self {α β : Type} [DecidableEq α] (d : Dict α β) (k : α) (v : β) :
    dget (dset d k v) k = some v := by
  induction d with
  | nil => simp [dget, dset]
  | cons hd tl ih =>
      obtain ⟨k₀, v₀⟩ := hd
      by_cases h : k = k₀ <;> simp [dget, dset, h, ih]

theorem dget_dset_ne {α β : Type} [DecidableEq α] (d : Dict α β) {k k' : α} (v : β)
    (h : k' ≠ k) : dget (dset d k v) k' = dget d k' := by
  induction d with
  | nil => simp [dget, dset, h]
  | cons hd tl ih =>
      obtain ⟨k₀, v₀⟩ := hd
      by_cases hk : k = k₀
      · subst hk; simp [dget, dset, h]
      · by_cases hk' : k' = k₀ <;> simp [dget, dset, hk, hk', ih]

theorem dset_eq_of_dget {α β : Type} [DecidableEq α] {d : Dict α β} {k : α} {v : β}
    (h : dget d k = some v) : dset d k v = d := by
  induction d with
  | nil => simp [dget] at h
  | cons hd tl ih =>
      obtain ⟨k₀, v₀⟩ := hd
      by_cases hk : k = k₀
      · subst hk
        simp [dget] at h
        simp [dset, h]
      · simp [dget, hk] at h
        simp [dset, hk, ih h]

theorem dget_isSome_dset {α β : Type} [DecidableEq α] (d : Dict α β) (k k' : α) (v : β) :
    (dget (dset d k v) k').isSome ↔ k' = k ∨ (dget d k').isSome := by
  by_cases h : k' = k
  · subst h; simp [dget_dset_self]
  · simp [dget_dset_ne d v h, h]

/-! ### Two-level (`defaultdict(dict)`) lemmas -/

theorem lookup2_ddSet_self {κ ν : Type} [DecidableEq κ]
    (m : Dict String (Dict κ ν)) (name : String) (k : κ) (v : ν) :
    lookup2 (ddSet m name k v) name k = some v := by
  simp [lookup2, ddSet, dget_dset_self]

theorem dget_ddSet_ne {κ ν : Type} [DecidableEq κ]
    (m : Dict String (Dict κ ν)) {name name' : String} (k : κ) (v : ν)
    (h : name' ≠ name) : dget (ddSet m name k v) name' = dget m name' := by
  simp [ddSet, dget_dset_ne _ _ h]

theorem lookup2_ddSet_ne_name {κ ν : Type} [DecidableEq κ]
    (m : Dict String (Dict κ ν)) {name name' : String} (k k' : κ) (v : ν)
    (h : name' ≠ name) :
    lookup2 (ddSet m name k v) name' k' = lookup2 m name' k' := by
  simp [lookup2, dget_ddSet_ne m k v h]

theorem lookup2_ddSet_ne_key {κ ν : Type} [DecidableEq κ]
    (m : Dict String (Dict κ ν)) (name : String) {k k' : κ} (v : ν)
    (h : k' ≠ k) :
    lookup2 (ddSet m name k v) name k' = lookup2 m name k' := by
  unfold lookup2 ddSet
  rw [dget_dset_self]
  cases hrow : dget m name with
  | some row => simp [hrow, dget_dset_ne _ _ h]
  | none => simp [hrow, dget_dset_ne _ _ h, dget, h]

theorem ddSet_eq_of_lookup2 {κ ν : Type} [DecidableEq κ]
    {m : Dict String (Dict κ ν)} {name : String} {k : κ} {v : ν}
    (h : lookup2 m name k = some v) : ddSet m name k v = m := by
  unfold lookup2 at h
  cases hrow : dget m name with
  | none => rw [hrow] at h; simp at h
  | some row =>
      rw [hrow] at h
      simp only [Option.some_bind] at h
      unfold ddSet
      rw [hrow]
      simp only [Option.getD_some]
      rw [dset_eq_of_dget h, dset_eq_of_dget hrow]

theorem dget_isSome_ddSet {κ ν : Type} [DecidableEq κ]
    (m : Dict String (Dict κ ν)) (name name' : String) (k : κ) (v : ν) :
    (dget (ddSet m name k v) name').isSome ↔ name' = name ∨ (dget m name').isSome := by
  unfold ddSet; exact dget_isSome_dset ..

theorem lmGet_fst (m : LabelMap) (name : String) (lvl : Nat) :
    (lmGet m name lvl).1 = lookup2 m name lvl := by
  unfold lmGet lookup2
  cases h : dget m name <;> simp [h]

theorem lmGet_of_lookup2 {m : LabelMap} {name : String} {lvl : Nat} {s : String}
    (h : lookup2 m name lvl = some s) : lmGet m name lvl = (some s, m) := by
  unfold lookup2 at h
  cases hrow : dget m name with
  | none => rw [hrow] at h; simp at h
  | some row =>
      rw [hrow] at h
      simp only [Option.some_bind] at h
      unfold lmGet
      rw [hrow]
      simp [h]

theorem lmGet_fst_some {m : LabelMap} {name : String} {lvl : Nat} {s : String}
    (h : (lmGet m name lvl).1 = some s) : lmGet m name lvl = (some s, m) := by
  rw [lmGet_fst] at h
  exact lmGet_of_lookup2 h

theorem lmGet_absent {m : LabelMap} {name : String} (lvl : Nat)
    (h : dget m name = none) : lmGet m name lvl = (none, dset m name []) := by
  unfold lmGet
  rw [h]

/-! ### The code-point lexicographic order on strings -/

theorem leChars_cons_iff {x y : Char} {xs ys : List Char} :
    leChars (x :: xs) (y :: ys) = true ↔
      (x < y ∨ (x = y ∧ leChars xs ys = true)) := by
  simp only [leChars]
  by_cases h : x < y
  · simp [h]
  · by_cases he : x = y <;> simp [h, he]

theorem leChars_nil_iff {bs : List Char} :
    leChars bs [] = true ↔ bs = [] := by
  cases bs <;> simp [leChars]

theorem leChars_total : ∀ as bs : List Char,
    leChars as bs = true ∨ leChars bs as = true := by
  intro as
  induction as with
  | nil => intro bs; left; rfl
  | cons x xs ih =>
      intro bs
      cases bs with
      | nil => right; rfl
      | cons y ys =>
          rcases lt_trichotomy x y with h | h | h
          · left; simp [leChars_cons_iff, h]
          · subst h
            rcases ih ys with h2 | h2
            · left; simp [leChars_cons_iff, h2]
            · right; simp [leChars_cons_iff, h2]
          · right; simp [leChars_cons_iff, h]

theorem leChars_trans : ∀ as bs cs : List Char,
    leChars as bs = true → leChars bs cs = true → leChars as cs = true := by
  intro as
  induction as with
  | nil => intro bs cs _ _; rfl
  | cons x xs ih =>
      intro bs cs h1 h2
      cases bs with
      | nil => simp [leChars] at h1
      | cons y ys =>
          cases cs with
          | nil => simp [leChars_nil_iff] at h2
          | cons z zs =>
              rw [leChars_cons_iff] at h1 h2 ⊢
              rcases h1 with h1 | ⟨h1e, h1r⟩
              · rcases h2 with h2 | ⟨h2e, _⟩
                · exact Or.inl (lt_trans h1 h2)
                · exact Or.inl (h2e ▸ h1)
              · rcases h2 with h2 | ⟨h2e, h2r⟩
                · exact Or.inl (h1e ▸ h2)
                · exact Or.inr ⟨h1e.trans h2e, ih ys zs h1r h2r⟩

theorem leChars_antisymm : ∀ as bs : List Char,
    leChars as bs = true → leChars bs as = true → as = bs := by
  intro as
  induction as with
  | nil =>
      intro bs _ h2
      exact (leChars_nil_iff.mp h2).symm
  | cons x xs ih =>
      intro bs h1 h2
      cases bs with
      | nil => simp [leChars] at h1
      | cons y ys =>
          rw [leChars_cons_iff] at h1 h2
          rcases h1 with h1 | ⟨h1e, h1r⟩
          · rcases h2 with h2 | ⟨h2e, _⟩
            · exact absurd h2 (lt_asymm h1)
            · exact absurd h1 (h2e ▸ lt_irrefl y)
          · rcases h2 with h2 | ⟨_, h2r⟩
            · exact absurd h2 (h1e ▸ lt_irrefl x)
            · rw [h1e, ih ys h1r h2r]

instance : IsTotal String strLe :=
  ⟨fun a b => leChars_total a.data b.data⟩

instance : IsTrans String strLe :=
  ⟨fun a b c => leChars_trans a.data b.data c.data⟩

instance : IsAntisymm String strLe :=
  ⟨fun a b h1 h2 => by
    cases a
    cases b
    exact congrArg String.mk (leChars_antisymm _ _ h1 h2)⟩

/-! ### `sorted(set(...))` and the pure reference labelling -/

/-- The sorted-deduplicated suffix ingredients are invariant under
permutation of the input list (the heart of predecessor-order
independence). -/
theorem sortedSet_perm {l₁ l₂ : List String} (h : List.Perm l₁ l₂) :
    sortedSet l₁ = sortedSet l₂ :=
  List.eq_of_perm_of_sorted
    ((List.perm_insertionSort _ _).trans (h.dedup.trans (List.perm_insertionSort _ _).symm))
    (List.sorted_insertionSort _ _) (List.sorted_insertionSort _ _)

/-- The pure reference label of a graph vertex does not depend on the
enumeration order of the vertex set or of any vertex's predecessor list. -/
theorem wlRef_congr {H : String → String} {kg₁ kg₂ : KG}
    (hwf : WFKG kg₁)
    (hp : ∀ v ∈ kg₁.vertices, List.Perm (kg₁.preds v) (kg₂.preds v)) :
    ∀ n : Nat, ∀ v ∈ kg₁.vertices, wlRef H kg₁ n v = wlRef H kg₂ n v := by
  intro n
  induction n with
  | zero => intro v _; rfl
  | succ n ih =>
      intro v hvv
      have hpred : ∀ p ∈ kg₁.preds v, p ∈ kg₁.vertices := hwf v hvv
      have h1 : List.Perm ((kg₁.preds v).map (wlRef H kg₁ n)) ((kg₂.preds v).map (wlRef H kg₁ n)) :=
        (hp v hvv).map _
      have h2 : (kg₂.preds v).map (wlRef H kg₁ n) = (kg₂.preds v).map (wlRef H kg₂ n) := by
        apply List.map_congr_left
        intro p hp2
        exact ih p (hpred p ((hp v hvv).mem_iff.mpr hp2))
      simp only [wlRef]
      rw [ih v hvv, sortedSet_perm h1, h2]

/-! ### `_create_label` on a table that already holds level-`(n-1)` labels -/

theorem predLabels_eq {m : LabelMap} {lvl : Nat} {ps : List String} {f : String → String}
    (h : ∀ p ∈ ps, lookup2 m p lvl = some (f p)) :
    predLabels lvl m ps = (some (ps.map f), m) := by
  induction ps with
  | nil => rfl
  | cons p ps ih =>
      have hp := h p (List.mem_cons_self p ps)
      have ihh := ih fun q hq => h q (List.mem_cons_of_mem _ hq)
      rw [predLabels, lmGet_of_lookup2 hp]
      simp [ihh]

theorem createLabel_eq {kg : KG} {m : LabelMap} {v : String} {k : Nat}
    (f : String → String) {own : String}
    (hp : ∀ p ∈ kg.preds v, lookup2 m p k = some (f p))
    (hv : lookup2 m v k = some own) :
    createLabel kg m v (k + 1) =
      (some (own ++ "-" ++ String.intercalate "-" (sortedSet ((kg.preds v).map f))), m) := by
  simp only [createLabel, Nat.add_sub_cancel, predLabels_eq hp, lmGet_of_lookup2 hv]

theorem labelsOf_eq {m : LabelMap} {lvl : Nat} {ps : List String} {f : String → String}
    (h : ∀ p ∈ ps, lookup2 m p lvl = some (f p)) :
    labelsOf m lvl ps = some (ps.map f) := by
  induction ps with
  | nil => rfl
  | cons p ps ih =>
      have hp := h p (List.mem_cons_self p ps)
      have ihh := ih fun q hq => h q (List.mem_cons_of_mem _ hq)
      simp only [labelsOf, List.mapM_cons] at *
      rw [hp, ihh]
      rfl

/-! ### The level-0 initialization loop -/

theorem wlInit_label_lookup (vs : List String) (st : WLState) (name : String) (lvl : Nat) :
    lookup2 (wlInit vs st).label_map name lvl =
      if name ∈ vs ∧ lvl = 0 then some name else lookup2 st.label_map name lvl := by
  induction vs generalizing st with
  | nil => simp [wlInit]
  | cons v vs ih =>
      rw [wlInit, ih]
      by_cases h0 : lvl = 0
      · subst h0
        by_cases hv : name = v
        · subst hv
          by_cases hm : name ∈ vs <;> simp [hm, lookup2_ddSet_self]
        · by_cases hm : name ∈ vs <;>
            simp [hm, hv, lookup2_ddSet_ne_name _ _ _ _ hv, List.mem_cons]
      · by_cases hv : name = v
        · subst hv
          simp [h0, lookup2_ddSet_ne_key _ _ _ h0]
        · simp [h0, lookup2_ddSet_ne_name _ _ _ _ hv]

theorem wlInit_label_dget_notmem {vs : List String} {st : WLState} {name : String}
    (h : name ∉ vs) : dget (wlInit vs st).label_map name = dget st.label_map name := by
  induction vs generalizing st with
  | nil => rfl
  | cons v vs ih =>
      rw [wlInit, ih (fun hm => h (List.mem_cons_of_mem _ hm))]
      exact dget_ddSet_ne _ _ _ fun he => h (by simp [he])

theorem wlInit_inv_dget_notmem {vs : List String} {st : WLState} {name : String}
    (h : name ∉ vs) : dget (wlInit vs st).inv_label_map name = dget st.inv_label_map name := by
  induction vs generalizing st with
  | nil => rfl
  | cons v vs ih =>
      rw [wlInit, ih (fun hm => h (List.mem_cons_of_mem _ hm))]
      exact dget_ddSet_ne _ _ _ fun he => h (by simp [he])

theorem wlInit_label_isSome (vs : List String) (st : WLState) (name : String) :
    (dget (wlInit vs st).label_map name).isSome ↔
      name ∈ vs ∨ (dget st.label_map name).isSome := by
  induction vs generalizing st with
  | nil => simp [wlInit]
  | cons v vs ih =>
      rw [wlInit, ih]
      rw [show (ddSet st.label_map v 0 v : LabelMap) = ddSet st.label_map v 0 v from rfl]
      rw [dget_isSome_ddSet]
      simp [List.mem_cons]
      tauto

theorem wlInit_label_id {vs : List String} {st : WLState}
    (h : ∀ v ∈ vs, lookup2 st.label_map v 0 = some v) :
    (wlInit vs st).label_map = st.label_map := by
  induction vs generalizing st with
  | nil => rfl
  | cons v vs ih =>
      rw [wlInit, ddSet_eq_of_lookup2 (h v (List.mem_cons_self v vs))]
      exact ih fun u hu => h u (List.mem_cons_of_mem _ hu)

theorem wlInit_inv_mem {vs : List String} {st : WLState} {v : String}
    (hnd : vs.Nodup) (hv : v ∈ vs) (h0 : dget st.inv_label_map v = none) :
    dget (wlInit vs st).inv_label_map v = some [(.int 0, .str v)] := by
  induction vs generalizing st with
  | nil => cases hv
  | cons u vs ih =>
      rw [wlInit]
      rcases List.mem_cons.mp hv with he | hm
      · subst he
        have hnm : v ∉ vs := (List.nodup_cons.mp hnd).1
        rw [wlInit_inv_dget_notmem hnm]
        simp [ddSet, h0, dget_dset_self, dset]
      · have hne : v ≠ u := by
          rintro rfl
          exact (List.nodup_cons.mp hnd).1 hm
        exact ih (List.nodup_cons.mp hnd).2 hm (by rw [dget_ddSet_ne _ _ _ hne]; exact h0)

/-! ### The level-`n` pass -/

theorem lookup2_isSome_outer {κ ν : Type} [DecidableEq κ]
    {m : Dict String (Dict κ ν)} {name : String} {k : κ} {v : ν}
    (h : lookup2 m name k = some v) : (dget m name).isSome := by
  unfold lookup2 at h
  cases hh : dget m name
  · rw [hh] at h; simp at h
  · simp

theorem applyLvl_lookup (H : String → String) (kg : KG) (n : Nat)
    (vs : List String) (m : LabelMap) (name : String) (lvl : Nat) :
    lookup2 (applyLvl H kg n vs m) name lvl =
      if name ∈ vs ∧ lvl = n then some (wlRef H kg n name)
      else lookup2 m name lvl := by
  induction vs generalizing m with
  | nil => simp [applyLvl]
  | cons v vs ih =>
      rw [applyLvl, List.foldl_cons]
      rw [show (vs.foldl (fun m v => ddSet m v n (wlRef H kg n v))
        (ddSet m v n (wlRef H kg n v))) =
        applyLvl H kg n vs (ddSet m v n (wlRef H kg n v)) from rfl, ih]
      by_cases hlvl : lvl = n
      · subst hlvl
        by_cases hv : name = v
        · subst hv
          by_cases hm : name ∈ vs <;> simp [hm, lookup2_ddSet_self]
        · by_cases hm : name ∈ vs <;>
            simp [hm, hv, lookup2_ddSet_ne_name _ _ _ _ hv, List.mem_cons]
      · by_cases hv : name = v
        · subst hv
          simp [hlvl, lookup2_ddSet_ne_key _ _ _ hlvl]
        · simp [hlvl, lookup2_ddSet_ne_name _ _ _ _ hv]

theorem applyLvl_dget_notmem {H : String → String} {kg : KG} {n : Nat}
    {vs : List String} {m : LabelMap} {name : String} (h : name ∉ vs) :
    dget (applyLvl H kg n vs m) name = dget m name := by
  induction vs generalizing m with
  | nil => rfl
  | cons v vs ih =>
      rw [applyLvl, List.foldl_cons]
      rw [show (vs.foldl (fun m v => ddSet m v n (wlRef H kg n v))
        (ddSet m v n (wlRef H kg n v))) =
        applyLvl H kg n vs (ddSet m v n (wlRef H kg n v)) from rfl]
      rw [ih fun hm => h (List.mem_cons_of_mem _ hm)]
      exact dget_ddSet_ne _ _ _ fun he => h (by simp [he])

theorem applyLvl_isSome (H : String → String) (kg : KG) (n : Nat)
    (vs : List String) (m : LabelMap) (name : String) :
    (dget (applyLvl H kg n vs m) name).isSome ↔
      name ∈ vs ∨ (dget m name).isSome := by
  induction vs generalizing m with
  | nil => simp [applyLvl]
  | cons v vs ih =>
      rw [applyLvl, List.foldl_cons]
      rw [show (vs.foldl (fun m v => ddSet m v n (wlRef H kg n v))
        (ddSet m v n (wlRef H kg n v))) =
        applyLvl H kg n vs (ddSet m v n (wlRef H kg n v)) from rfl, ih]
      rw [dget_isSome_ddSet]
      simp [List.mem_cons]
      tauto

theorem applyLvl_id {H : String → String} {kg : KG} {n : Nat}
    {vs : List String} {m : LabelMap}
    (h : ∀ v ∈ vs, lookup2 m v n = some (wlRef H kg n v)) :
    applyLvl H kg n vs m = m := by
  induction vs with
  | nil => rfl
  | cons v vs ih =>
      rw [applyLvl, List.foldl_cons, ddSet_eq_of_lookup2 (h v (List.mem_cons_self v vs))]
      exact ih fun u hu => h u (List.mem_cons_of_mem _ hu)

/-- Writing at one level key never disturbs a read at a different level
key, whatever the vertex names involved. -/
theorem lookup2_ddSet_diff_key {κ ν : Type} [DecidableEq κ]
    (m : Dict String (Dict κ ν)) (name name' : String) {k k' : κ} (v : ν)
    (h : k' ≠ k) :
    lookup2 (ddSet m name k v) name' k' = lookup2 m name' k' := by
  by_cases hn : name' = name
  · subst hn; exact lookup2_ddSet_ne_key m name' v h
  · exact lookup2_ddSet_ne_name m k k' v hn

/-- The effectful level pass succeeds and equals the pure `applyLvl` fold
whenever every processed vertex and all its predecessors already hold
reference labels at level `k`. -/
theorem wlLevel_eq (H : String → String) (kg : KG) {k : Nat} :
    ∀ (vs : List String) (st : WLState),
    (∀ v ∈ vs, lookup2 st.label_map v k = some (wlRef H kg k v)) →
    (∀ v ∈ vs, ∀ p ∈ kg.preds v, lookup2 st.label_map p k = some (wlRef H kg k p)) →
    wlLevel H kg (k + 1) vs st =
      some { st with label_map := applyLvl H kg (k + 1) vs st.label_map } := by
  intro vs
  induction vs with
  | nil => intro st _ _; simp [wlLevel, applyLvl]
  | cons v vs ih =>
      intro st hv hp
      have hcl := createLabel_eq (wlRef H kg k)
        (hp v (List.mem_cons_self v vs)) (hv v (List.mem_cons_self v vs))
      rw [wlLevel, hcl]
      have hval : (H (wlRef H kg k v ++ "-" ++
          String.intercalate "-" (sortedSet (List.map (wlRef H kg k) (kg.preds v))))) =
          wlRef H kg (k + 1) v := rfl
      simp only [hval]
      rw [ih { st with label_map := ddSet st.label_map v (k + 1) (wlRef H kg (k + 1) v) }
        (fun u hu => by
          show lookup2 (ddSet st.label_map v (k + 1) (wlRef H kg (k + 1) v)) u k =
            some (wlRef H kg k u)
          rw [lookup2_ddSet_diff_key _ _ _ _ (Nat.ne_of_lt (Nat.lt_succ_self k))]
          exact hv u (List.mem_cons_of_mem _ hu))
        (fun u hu p hpp => by
          show lookup2 (ddSet st.label_map v (k + 1) (wlRef H kg (k + 1) v)) p k =
            some (wlRef H kg k p)
          rw [lookup2_ddSet_diff_key _ _ _ _ (Nat.ne_of_lt (Nat.lt_succ_self k))]
          exact hp u (List.mem_cons_of_mem _ hu) p hpp)]
      simp only [applyLvl, List.foldl_cons]

/-! ### The full level loop `for n in range(1, L + 1)` -/

theorem wlLevels_range (H : String → String) (kg : KG) (hwf : WFKG kg) :
    ∀ (len k : Nat) (st : WLState),
    (∀ v ∈ kg.vertices, ∀ lvl, lvl ≤ k →
      lookup2 st.label_map v lvl = some (wlRef H kg lvl v)) →
    ∃ st', wlLevels H kg (List.range' (k + 1) len) st = some st' ∧
      st'.inv_label_map = st.inv_label_map ∧
      (∀ v ∈ kg.vertices, ∀ lvl, lvl ≤ k + len →
        lookup2 st'.label_map v lvl = some (wlRef H kg lvl v)) ∧
      (∀ name lvl, name ∉ kg.vertices ∨ lvl ≤ k ∨ k + len < lvl →
        lookup2 st'.label_map name lvl = lookup2 st.label_map name lvl) ∧
      (∀ name, name ∉ kg.vertices →
        dget st'.label_map name = dget st.label_map name) ∧
      (∀ name, (dget st'.label_map name).isSome ↔ (dget st.label_map name).isSome) := by
  intro len
  induction len with
  | zero =>
      intro k st h0
      refine ⟨st, rfl, rfl, ?_, fun _ _ _ => rfl, fun _ _ => rfl, fun _ => Iff.rfl⟩
      intro v hv lvl hlvl
      exact h0 v hv lvl (by omega)
  | succ len ih =>
      intro k st h0
      have hstep := wlLevel_eq H kg kg.vertices st
        (fun v hv => h0 v hv k (Nat.le_refl k))
        (fun v hv p hpp => h0 p (hwf v hv p hpp) k (Nat.le_refl k))
      have h0' : ∀ v ∈ kg.vertices, ∀ lvl, lvl ≤ k + 1 →
          lookup2 (applyLvl H kg (k + 1) kg.vertices st.label_map) v lvl =
            some (wlRef H kg lvl v) := by
        intro v hv lvl hlvl
        rw [applyLvl_lookup]
        by_cases hl : lvl = k + 1
        · simp [hl, hv]
        · rw [if_neg (by tauto)]
          exact h0 v hv lvl (by omega)
      obtain ⟨st', hrun, hinv, hmem, hout, hng, hsome⟩ :=
        ih (k + 1) { st with label_map := applyLvl H kg (k + 1) kg.vertices st.label_map } h0'
      refine ⟨st', ?_, hinv, ?_, ?_, ?_, ?_⟩
      · rw [List.range'_succ, wlLevels, hstep]
        exact hrun
      · intro v hv lvl hlvl
        exact hmem v hv lvl (by omega)
      · intro name lvl hcond
        have h1 : lookup2 st'.label_map name lvl =
            lookup2 (applyLvl H kg (k + 1) kg.vertices st.label_map) name lvl := by
          apply hout
          rcases hcond with hc | hc | hc
          · exact Or.inl hc
          · exact Or.inr (Or.inl (by omega))
          · exact Or.inr (Or.inr (by omega))
        rw [h1, applyLvl_lookup, if_neg]
        rintro ⟨hmemv, hlv⟩
        rcases hcond with hc | hc | hc
        · exact hc hmemv
        · omega
        · omega
      · intro name hnm
        rw [hng name hnm]
        exact applyLvl_dget_notmem hnm
      · intro name
        rw [hsome name, applyLvl_isSome]
        constructor
        · rintro (hmemv | hs)
          · exact lookup2_isSome_outer (h0 name hmemv 0 (Nat.zero_le k))
          · exact hs
        · exact Or.inr

/-- Running the level loop over a table that already holds all reference
labels up to level `k + len` changes nothing at all. -/
theorem wlLevels_noop (H : String → String) (kg : KG) (hwf : WFKG kg) :
    ∀ (len k : Nat) (st : WLState),
    (∀ v ∈ kg.vertices, ∀ lvl, lvl ≤ k + len →
      lookup2 st.label_map v lvl = some (wlRef H kg lvl v)) →
    wlLevels H kg (List.range' (k + 1) len) st = some st := by
  intro len
  induction len with
  | zero => intro k st _; rfl
  | succ len ih =>
      intro k st h
      have hstep := wlLevel_eq H kg kg.vertices st
        (fun v hv => h v hv k (by omega))
        (fun v hv p hpp => h p (hwf v hv p hpp) k (by omega))
      have hid : applyLvl H kg (k + 1) kg.vertices st.label_map = st.label_map :=
        applyLvl_id fun v hv => h v hv (k + 1) (by omega)
      rw [List.range'_succ, wlLevels, hstep, hid]
      exact ih (k + 1) st fun v hv lvl hlvl => h v hv lvl (by omega)

/-! ### The inverse-table loop -/

theorem invertRowItems_int_head (x : PyVal) (r : Dict PyVal PyVal)
    (row : List (Nat × String)) :
    invertRowItems ((.int 0, x) :: r) row = (.int 0, x) :: invertRowItems r row := by
  induction row generalizing r with
  | nil => rfl
  | cons kv row ih =>
      rw [invertRowItems, List.foldl_cons]
      rw [show (dset ((PyVal.int 0, x) :: r) (.str kv.2) (.int kv.1)) =
        (PyVal.int 0, x) :: dset r (.str kv.2) (.int kv.1) by simp [dset]]
      exact ih (dset r (.str kv.2) (.int kv.1))

theorem dget_wlInvertRow_ne {name name' : String} (h : name' ≠ name) :
    ∀ (items : List (Nat × String)) (iv : InvMap),
    dget (wlInvertRow name iv items) name' = dget iv name' := by
  intro items
  induction items with
  | nil => intro iv; rfl
  | cons kv items ih =>
      intro iv
      obtain ⟨k, s⟩ := kv
      rw [wlInvertRow, ih, dget_ddSet_ne _ _ _ h]

theorem dget_wlInvertRow_self {name : String} :
    ∀ (items : List (Nat × String)) (iv : InvMap) (r : Dict PyVal PyVal),
    dget iv name = some r →
    dget (wlInvertRow name iv items) name = some (invertRowItems r items) := by
  intro items
  induction items with
  | nil => intro iv r h; exact h
  | cons kv items ih =>
      intro iv r h
      obtain ⟨k, s⟩ := kv
      rw [wlInvertRow]
      apply ih
      unfold ddSet
      rw [h, dget_dset_self]
      rfl

theorem wlInvert_label_id : ∀ (vs : List String) (st : WLState),
    (∀ v ∈ vs, (dget st.label_map v).isSome) →
    (wlInvert vs st).label_map = st.label_map := by
  intro vs
  induction vs with
  | nil => intro st _; rfl
  | cons v vs ih =>
      intro st h
      have hv := h v (List.mem_cons_self v vs)
      cases hrow : dget st.label_map v with
      | none => rw [hrow] at hv; simp at hv
      | some row =>
          rw [wlInvert, hrow]
          exact ih _ fun u hu => h u (List.mem_cons_of_mem _ hu)

theorem wlInvert_inv_notmem {name : String} : ∀ (vs : List String) (st : WLState),
    name ∉ vs →
    dget (wlInvert vs st).inv_label_map name = dget st.inv_label_map name := by
  intro vs
  induction vs with
  | nil => intro st _; rfl
  | cons v vs ih =>
      intro st h
      have hne : name ≠ v := fun he => h (by simp [he])
      have htl : name ∉ vs := fun hm => h (List.mem_cons_of_mem _ hm)
      cases hrow : dget st.label_map v with
      | none => rw [wlInvert, hrow]; exact ih _ htl
      | some row =>
          rw [wlInvert, hrow, ih _ htl]
          exact dget_wlInvertRow_ne hne row st.inv_label_map

theorem wlInvert_inv_mem {v : String} {row : List (Nat × String)}
    {r : Dict PyVal PyVal} :
    ∀ (vs : List String) (st : WLState), vs.Nodup → v ∈ vs →
    dget st.label_map v = some row →
    dget st.inv_label_map v = some r →
    dget (wlInvert vs st).inv_label_map v = some (invertRowItems r row) := by
  intro vs
  induction vs with
  | nil => intro st _ hv; cases hv
  | cons u vs ih =>
      intro st hnd hv hrow hiv
      rcases List.mem_cons.mp hv with he | hm
      · subst he
        rw [wlInvert, hrow]
        rw [wlInvert_inv_notmem vs _ (List.nodup_cons.mp hnd).1]
        exact dget_wlInvertRow_self row st.inv_label_map r hiv
      · have hne : v ≠ u := by
          rintro rfl
          exact (List.nodup_cons.mp hnd).1 hm
        cases hrowu : dget st.label_map u with
        | none =>
            rw [wlInvert, hrowu]
            refine ih _ (List.nodup_cons.mp hnd).2 hm ?_ hiv
            show dget (dset st.label_map u []) v = some row
            rw [dget_dset_ne _ _ hne]
            exact hrow
        | some rowu =>
            rw [wlInvert, hrowu]
            refine ih _ (List.nodup_cons.mp hnd).2 hm hrow ?_
            show dget (wlInvertRow u st.inv_label_map rowu) v = some r
            rw [dget_wlInvertRow_ne hne]
            exact hiv

/-! ### The complete `_weisfeiler_lehman` pass -/

/-- Main characterization of `_weisfeiler_lehman` over a well-formed graph,
from an arbitrary prior table state: the pass always succeeds, stores the
reference label for every graph vertex at every level `0..L`, leaves rows
of non-vertices untouched, leaves levels above `L` untouched, and adds
exactly the graph vertices to the outer key set. -/
theorem wlMain (H : String → String) (kg : KG) (L : Nat) (st : WLState)
    (hwf : WFKG kg) :
    ∃ st', weisfeilerLehman H kg L st = some st' ∧
      (∀ v ∈ kg.vertices, ∀ lvl, lvl ≤ L →
        lookup2 st'.label_map v lvl = some (wlRef H kg lvl v)) ∧
      (∀ name, name ∉ kg.vertices →
        dget st'.label_map name = dget st.label_map name) ∧
      (∀ v lvl, L < lvl →
        lookup2 st'.label_map v lvl = lookup2 st.label_map v lvl) ∧
      (∀ name, (dget st'.label_map name).isSome ↔
        name ∈ kg.vertices ∨ (dget st.label_map name).isSome) := by
  have h0 : ∀ v ∈ kg.vertices, ∀ lvl, lvl ≤ 0 →
      lookup2 (wlInit kg.vertices st).label_map v lvl = some (wlRef H kg lvl v) := by
    intro v hv lvl hlvl
    have : lvl = 0 := Nat.le_zero.mp hlvl
    subst this
    rw [wlInit_label_lookup]
    simp [hv]
    rfl
  obtain ⟨st₁, hrun, _hinv, hmem, hout, hng, hsome⟩ :=
    wlLevels_range H kg hwf L 0 (wlInit kg.vertices st) h0
  rw [Nat.zero_add] at hrun
  have hkeys : ∀ v ∈ kg.vertices, (dget st₁.label_map v).isSome := fun v hv =>
    lookup2_isSome_outer (hmem v hv 0 (Nat.zero_le _))
  have hlbl : (wlInvert kg.vertices st₁).label_map = st₁.label_map :=
    wlInvert_label_id _ _ hkeys
  refine ⟨wlInvert kg.vertices st₁, ?_, ?_, ?_, ?_, ?_⟩
  · unfold weisfeilerLehman
    rw [hrun]
  · intro v hv lvl hlvl
    rw [hlbl]
    exact hmem v hv lvl (by omega)
  · intro name hnm
    rw [hlbl, hng name hnm]
    exact wlInit_label_dget_notmem hnm
  · intro v lvl hlvl
    rw [hlbl, hout v lvl (Or.inr (Or.inr (by omega))), wlInit_label_lookup,
      if_neg (by rintro ⟨_, h⟩; omega)]
  · intro name
    rw [hlbl, hsome name, wlInit_label_isSome]

/-- Relabeling a table that already holds all reference labels for levels
`0..L` leaves the Label Table structurally (byte-for-byte) unchanged. -/
theorem wlNoop (H : String → String) (kg : KG) (L : Nat) (st : WLState)
    (hwf : WFKG kg)
    (h : ∀ v ∈ kg.vertices, ∀ lvl, lvl ≤ L →
      lookup2 st.label_map v lvl = some (wlRef H kg lvl v)) :
    ∃ st', weisfeilerLehman H kg L st = some st' ∧
      st'.label_map = st.label_map := by
  have hinit : (wlInit kg.vertices st).label_map = st.label_map :=
    wlInit_label_id fun v hv => h v hv 0 (Nat.zero_le L)
  have hlv := wlLevels_noop H kg hwf L 0 (wlInit kg.vertices st) (by
    intro v hv lvl hlvl
    rw [hinit]
    exact h v hv lvl (by omega))
  rw [Nat.zero_add] at hlv
  have hkeys : ∀ v ∈ kg.vertices,
      (dget (wlInit kg.vertices st).label_map v).isSome := fun v hv => by
    rw [hinit]
    exact lookup2_isSome_outer (h v hv 0 (Nat.zero_le L))
  refine ⟨wlInvert kg.vertices (wlInit kg.vertices st), ?_, ?_⟩
  · unfold weisfeilerLehman
    rw [hlv]
  · rw [wlInvert_label_id _ _ hkeys, hinit]

/-! ### Claims about the relabeling engine -/

/-- C1: for every vertex `v` present in the graph at relabeling time and
every level `n = k + 1` with `1 ≤ n ≤ L`, the stored label at level `n` is
the hash digest `H` of the pre-hash string formed by `v`'s level-`k` label,
the separator `-`, and the suffix obtained by deduplicating the
predecessors' level-`k` labels, sorting them ascending, and joining them
with `-`; with zero predecessors the suffix is empty and the pre-hash is
the level-`k` label followed by `-` and nothing. -/
theorem C1_stored_label_is_hash_of_prehash
    (H : String → String) (kg : KG) (L : Nat) (st st' : WLState)
    (hwf : WFKG kg) (hrun : weisfeilerLehman H kg L st = some st') :
    ∀ v ∈ kg.vertices, ∀ k, k + 1 ≤ L →
      ∃ prev plabels,
        lookup2 st'.label_map v k = some prev ∧
        labelsOf st'.label_map k (kg.preds v) = some plabels ∧
        lookup2 st'.label_map v (k + 1) =
          some (H (prev ++ "-" ++ String.intercalate "-" (sortedSet plabels))) ∧
        (kg.preds v = [] →
          lookup2 st'.label_map v (k + 1) = some (H (prev ++ "-"))) := by
  obtain ⟨st₂, hrun₂, hmem, _, _, _⟩ := wlMain H kg L st hwf
  rw [hrun] at hrun₂
  cases hrun₂
  intro v hv k hk
  refine ⟨wlRef H kg k v, (kg.preds v).map (wlRef H kg k), ?_, ?_, ?_, ?_⟩
  · exact hmem v hv k (by omega)
  · exact labelsOf_eq fun p hp => hmem p (hwf v hv p hp) k (by omega)
  · rw [hmem v hv (k + 1) hk]
    rfl
  · intro hnil
    rw [hmem v hv (k + 1) hk]
    show some (H (wlRef H kg k v ++ "-" ++
      String.intercalate "-" (sortedSet (List.map (wlRef H kg k) (kg.preds v))))) = _
    rw [hnil]
    show some (H (wlRef H kg k v ++ "-" ++ "")) = _
    rw [String.append_empty]

/-- Closed witness for C1 on a concrete three-vertex graph. -/
theorem C1_stored_label_is_hash_of_prehash_witness :
    ∃ st', weisfeilerLehman H0 kgP1 2 WLState.empty = some st' ∧
      ∀ v ∈ kgP1.vertices, ∀ k, k + 1 ≤ 2 →
        ∃ prev plabels,
          lookup2 st'.label_map v k = some prev ∧
          labelsOf st'.label_map k (kgP1.preds v) = some plabels ∧
          lookup2 st'.label_map v (k + 1) =
            some (H0 (prev ++ "-" ++ String.intercalate "-" (sortedSet plabels))) ∧
          (kgP1.preds v = [] →
            lookup2 st'.label_map v (k + 1) = some (H0 (prev ++ "-"))) := by
  refine ⟨(weisfeilerLehman H0 kgP1 2 WLState.empty).getD WLState.empty, ?_, ?_⟩
  · decide
  · exact C1_stored_label_is_hash_of_prehash H0 kgP1 2 WLState.empty _ (by decide)
      (by decide)

/-- C3 counterexample: on the one-vertex graph `kgA` with `L = 1`, the
vertex's inverse-table row is not the pure inversion of its level→label
row: it additionally holds the entry `0 ↦ "a"` (an `int` key) written by
the level-0 initialization loop, so the inverse table is not "precisely the
inversion … with no other entries". -/
theorem C3_counterexample_extra_int_key :
    (weisfeilerLehman H0 kgA 1 WLState.empty).map
        (fun st => dget st.label_map "a") = some (some [(0, "a"), (1, "#a-")]) ∧
    (weisfeilerLehman H0 kgA 1 WLState.empty).map
        (fun st => dget st.inv_label_map "a") =
      some (some ((.int 0, .str "a") :: specInvRow [(0, "a"), (1, "#a-")])) ∧
    ((.int 0, .str "a") :: specInvRow [(0, "a"), (1, "#a-")]) ≠
      specInvRow [(0, "a"), (1, "#a-")] := by
  refine ⟨by decide, by decide, by decide⟩

/-- C3 amended: after a relabeling pass on a fresh engine, every graph
vertex's inverse-table row equals the inversion of its level→label row
*prefixed by one extra entry* mapping the integer key `0` to the vertex's
name, which the level-0 initialization loop wrote before the Label Table
was complete. -/
theorem C3_amended_inverse_table (H : String → String) (kg : KG) (L : Nat)
    (hwf : WFKG kg) (hnd : kg.vertices.Nodup) :
    ∃ st', weisfeilerLehman H kg L WLState.empty = some st' ∧
      ∀ v ∈ kg.vertices, ∃ row,
        dget st'.label_map v = some row ∧
        dget st'.inv_label_map v =
          some ((.int 0, .str v) :: specInvRow row) := by
  have h0 : ∀ v ∈ kg.vertices, ∀ lvl, lvl ≤ 0 →
      lookup2 (wlInit kg.vertices WLState.empty).label_map v lvl =
        some (wlRef H kg lvl v) := by
    intro v hv lvl hlvl
    have : lvl = 0 := Nat.le_zero.mp hlvl
    subst this
    rw [wlInit_label_lookup]
    simp [hv]
    rfl
  obtain ⟨st₁, hrun, hinv, hmem, _, _, _⟩ :=
    wlLevels_range H kg hwf L 0 (wlInit kg.vertices WLState.empty) h0
  rw [Nat.zero_add] at hrun
  refine ⟨wlInvert kg.vertices st₁, ?_, ?_⟩
  · unfold weisfeilerLehman
    rw [hrun]
  · intro v hv
    have hkey : (dget st₁.label_map v).isSome :=
      lookup2_isSome_outer (hmem v hv 0 (Nat.zero_le _))
    obtain ⟨row, hrow⟩ := Option.isSome_iff_exists.mp hkey
    have hivrow : dget st₁.inv_label_map v = some [(.int 0, .str v)] := by
      rw [hinv]
      exact wlInit_inv_mem hnd hv rfl
    refine ⟨row, ?_, ?_⟩
    · rw [wlInvert_label_id _ _ fun u hu =>
        lookup2_isSome_outer (hmem u hu 0 (Nat.zero_le _))]
      exact hrow
    · rw [wlInvert_inv_mem kg.vertices st₁ hnd hv hrow hivrow]
      rw [show invertRowItems [(PyVal.int 0, PyVal.str v)] row =
        (PyVal.int 0, PyVal.str v) :: invertRowItems [] row from
        invertRowItems_int_head _ _ _]
      rfl

/-- Closed witness for the amended C3 on the concrete graph `kgP1`. -/
theorem C3_amended_inverse_table_witness :
    ∃ st', weisfeilerLehman H0 kgP1 1 WLState.empty = some st' ∧
      ∀ v ∈ kgP1.vertices, ∃ row,
        dget st'.label_map v = some row ∧
        dget st'.inv_label_map v =
          some ((.int 0, .str v) :: specInvRow row) :=
  C3_amended_inverse_table H0 kgP1 1 (by decide) (by decide)

/-- C4 counterexample: `0` is not a positive integer, yet construction with
`wl_iterations=0` succeeds — the `attrs` validator is only
`instance_of(int)` and performs no positivity check. -/
theorem C4_counterexample_nonpositive_accepted :
    ¬ isPosInt (.int 0) ∧ mkWLWalker (some (.int 0)) = .ok ⟨0⟩ :=
  ⟨by decide, rfl⟩

/-- C4 amended: construction rejects exactly the non-`int` values of
`wl_iterations` (raising `TypeError`); every integer — including zero and
negative values — is accepted, as is omitting the argument (default 4). -/
theorem C4_amended_validator_accepts_every_int :
    ∀ o : Option PyObj, (∃ cfg, mkWLWalker o = .ok cfg) ↔
      (o = Option.none ∨ ∃ n : Int, o = some (.int n)) := by
  intro o
  cases o with
  | none => simp [mkWLWalker]
  | some p => cases p <;> simp [mkWLWalker]

/-- C5 counterexample: relabel the one-vertex graph `kgA` from a fresh
engine, then relabel the empty graph `kgE` on the same engine: the stale
row of `"a"` survives (`label("a", 0) = "a"`), while a freshly constructed
engine relabeling `kgE` has no entry for `"a"` — the tables are not
"overwritten wholesale". -/
theorem C5_counterexample_stale_entries_survive :
    ((weisfeilerLehman H0 kgA 1 WLState.empty).bind fun st₁ =>
        weisfeilerLehman H0 kgE 1 st₁).map
        (fun st => lookup2 st.label_map "a" 0) = some (some "a") ∧
    (weisfeilerLehman H0 kgE 1 WLState.empty).map
        (fun st => lookup2 st.label_map "a" 0) = some none := by
  refine ⟨by decide, by decide⟩

/-- C5 amended: a relabeling pass overwrites, for every vertex in the graph
and every level `0..L`, the stored label with the value a freshly
constructed engine would compute; rows of vertices *not* in the graph are
left exactly as the prior state had them (the tables are never cleared). -/
theorem C5_amended_overwrite_graph_rows_keep_stale_rows
    (H : String → String) (kg : KG) (L : Nat) (st st' stf : WLState)
    (hwf : WFKG kg)
    (h : weisfeilerLehman H kg L st = some st')
    (hf : weisfeilerLehman H kg L WLState.empty = some stf) :
    (∀ v ∈ kg.vertices, ∀ lvl, lvl ≤ L →
      lookup2 st'.label_map v lvl = lookup2 stf.label_map v lvl) ∧
    (∀ name, name ∉ kg.vertices →
      dget st'.label_map name = dget st.label_map name) := by
  obtain ⟨st₂, hrun₂, hmem₂, hng₂, _, _⟩ := wlMain H kg L st hwf
  rw [h] at hrun₂
  cases hrun₂
  obtain ⟨stf₂, hrunf, hmemf, _, _, _⟩ := wlMain H kg L WLState.empty hwf
  rw [hf] at hrunf
  cases hrunf
  exact ⟨fun v hv lvl hlvl => by
      rw [hmem₂ v hv lvl hlvl, hmemf v hv lvl hlvl],
    hng₂⟩

/-- Closed witness for the amended C5: relabel `kgP1` over the tables left
by relabeling `kgA`. -/
theorem C5_amended_overwrite_graph_rows_keep_stale_rows_witness :
    ∃ stA st' stf,
      weisfeilerLehman H0 kgA 1 WLState.empty = some stA ∧
      weisfeilerLehman H0 kgP1 1 stA = some st' ∧
      weisfeilerLehman H0 kgP1 1 WLState.empty = some stf ∧
      ((∀ v ∈ kgP1.vertices, ∀ lvl, lvl ≤ 1 →
        lookup2 st'.label_map v lvl = lookup2 stf.label_map v lvl) ∧
       (∀ name, name ∉ kgP1.vertices →
        dget st'.label_map name = dget stA.label_map name)) := by
  refine ⟨(weisfeilerLehman H0 kgA 1 WLState.empty).getD WLState.empty,
    (weisfeilerLehman H0 kgP1 1
      ((weisfeilerLehman H0 kgA 1 WLState.empty).getD WLState.empty)).getD WLState.empty,
    (weisfeilerLehman H0 kgP1 1 WLState.empty).getD WLState.empty,
    by decide, by decide, by decide, ?_⟩
  exact C5_amended_overwrite_graph_rows_keep_stale_rows H0 kgP1 1 _ _ _ (by decide)
    (by decide) (by decide)

/-- C6: for a fixed `L`, two independent fresh relabeling runs over graphs
that enumerate the same vertex set and the same predecessor sets — in
possibly different orders — produce identical Label Tables: the same outer
keys and the same stored label for every vertex/level pair.  In particular,
permuting a vertex's predecessor enumeration does not change any label. -/
theorem C6_relabel_enumeration_order_invariant
    (H : String → String) (L : Nat) (kg₁ kg₂ : KG)
    (hwf : WFKG kg₁) (hv : List.Perm kg₁.vertices kg₂.vertices)
    (hp : ∀ v ∈ kg₁.vertices, List.Perm (kg₁.preds v) (kg₂.preds v)) :
    ∃ st₁ st₂, weisfeilerLehman H kg₁ L WLState.empty = some st₁ ∧
      weisfeilerLehman H kg₂ L WLState.empty = some st₂ ∧
      (∀ name, (dget st₁.label_map name).isSome ↔
        (dget st₂.label_map name).isSome) ∧
      (∀ name lvl, lookup2 st₁.label_map name lvl =
        lookup2 st₂.label_map name lvl) := by
  have hwf₂ : WFKG kg₂ := by
    intro v hv2 p hp2
    have hv1 : v ∈ kg₁.vertices := hv.mem_iff.mpr hv2
    have hp1 : p ∈ kg₁.preds v := (hp v hv1).mem_iff.mpr hp2
    exact hv.mem_iff.mp (hwf v hv1 p hp1)
  obtain ⟨st₁, h1, hmem1, hng1, habove1, hsome1⟩ := wlMain H kg₁ L WLState.empty hwf
  obtain ⟨st₂, h2, hmem2, hng2, habove2, hsome2⟩ := wlMain H kg₂ L WLState.empty hwf₂
  refine ⟨st₁, st₂, h1, h2, ?_, ?_⟩
  · intro name
    rw [hsome1, hsome2]
    constructor
    · rintro (hm | hs)
      · exact Or.inl (hv.mem_iff.mp hm)
      · exact Or.inr hs
    · rintro (hm | hs)
      · exact Or.inl (hv.mem_iff.mpr hm)
      · exact Or.inr hs
  · intro name lvl
    by_cases hmem : name ∈ kg₁.vertices
    · by_cases hlvl : lvl ≤ L
      · rw [hmem1 name hmem lvl hlvl, hmem2 name (hv.mem_iff.mp hmem) lvl hlvl,
          wlRef_congr hwf hp lvl name hmem]
      · rw [habove1 name lvl (by omega), habove2 name lvl (by omega)]
    · have h2m : name ∉ kg₂.vertices := fun hc => hmem (hv.mem_iff.mpr hc)
      unfold lookup2
      rw [hng1 name hmem, hng2 name h2m]

/-- Closed witness for C6: `kgP1` and `kgP2` differ only in the enumeration
order of `c`'s predecessors. -/
theorem C6_relabel_enumeration_order_invariant_witness :
    ∃ st₁ st₂, weisfeilerLehman H0 kgP1 1 WLState.empty = some st₁ ∧
      weisfeilerLehman H0 kgP2 1 WLState.empty = some st₂ ∧
      (∀ name, (dget st₁.label_map name).isSome ↔
        (dget st₂.label_map name).isSome) ∧
      (∀ name lvl, lookup2 st₁.label_map name lvl =
        lookup2 st₂.label_map name lvl) :=
  C6_relabel_enumeration_order_invariant H0 1 kgP1 kgP2 (by decide) (by decide)
    (by decide)

/-- C7: relabeling is idempotent for an unchanged graph — running
`_weisfeiler_lehman` again right after a completed run succeeds and leaves
the Label Table structurally (byte-for-byte) identical. -/
theorem C7_relabel_idempotent (H : String → String) (kg : KG) (L : Nat)
    (st st₁ : WLState) (hwf : WFKG kg)
    (h₁ : weisfeilerLehman H kg L st = some st₁) :
    ∃ st₂, weisfeilerLehman H kg L st₁ = some st₂ ∧
      st₂.label_map = st₁.label_map := by
  obtain ⟨st₁', hrun, hmem, _, _, _⟩ := wlMain H kg L st hwf
  rw [h₁] at hrun
  cases hrun
  exact wlNoop H kg L st₁ hwf hmem

/-- Closed witness for C7 on the concrete graph `kgP1`. -/
theorem C7_relabel_idempotent_witness :
    ∃ st₁ st₂, weisfeilerLehman H0 kgP1 1 WLState.empty = some st₁ ∧
      weisfeilerLehman H0 kgP1 1 st₁ = some st₂ ∧
      st₂.label_map = st₁.label_map := by
  obtain ⟨st₂, h₂, heq⟩ := C7_relabel_idempotent H0 kgP1 1 WLState.empty
    ((weisfeilerLehman H0 kgP1 1 WLState.empty).getD WLState.empty) (by decide)
    (by decide)
  exact ⟨_, st₂, by decide, h₂, heq⟩

/-! ### Canonicalization (`_extract`) -/

theorem canonHops_cons_id (n : Nat) (m : LabelMap) (i : Nat) (hop : String)
    (rest : List String) (hid : i = 0 ∨ i % 2 = 1) :
    canonHops n m i (hop :: rest) =
      ((canonHops n m (i + 1) rest).1.map (hop :: ·),
        (canonHops n m (i + 1) rest).2) := by
  rw [canonHops, if_pos hid]
  cases hrec : canonHops n m (i + 1) rest with
  | mk r m₁ => cases r <;> simp [hrec]

theorem canonHops_cons_lookup_some (n : Nat) (m : LabelMap) (i : Nat)
    (hop : String) (rest : List String) (lab : String)
    (hid : ¬(i = 0 ∨ i % 2 = 1)) (hl : lookup2 m hop n = some lab) :
    canonHops n m i (hop :: rest) =
      ((canonHops n m (i + 1) rest).1.map (lab :: ·),
        (canonHops n m (i + 1) rest).2) := by
  rw [canonHops, if_neg hid, lmGet_of_lookup2 hl]
  cases hrec : canonHops n m (i + 1) rest with
  | mk r m₁ => cases r <;> simp [hrec]

theorem canonHops_cons_lookup_none (n : Nat) (m : LabelMap) (i : Nat)
    (hop : String) (rest : List String)
    (hid : ¬(i = 0 ∨ i % 2 = 1)) (hl : lookup2 m hop n = none) :
    canonHops n m i (hop :: rest) = (none, (lmGet m hop n).2) := by
  have h1 : (lmGet m hop n).1 = none := by rw [lmGet_fst]; exact hl
  rw [canonHops, if_neg hid]
  cases hg : lmGet m hop n with
  | mk r m₁ =>
      rw [hg] at h1
      simp only at h1
      subst h1
      simp [hg]

/-- Success characterization of the canonical-walk inner loop: on success
the table is untouched, the canonical walk has the source walk's length,
positions with `i + j = 0` or odd `i + j` copy the hop name, and every even
position `> 0` holds exactly the stored label of that hop at level `n`. -/
theorem canonHops_some (n : Nat) : ∀ (w : List String) (m : LabelMap) (i : Nat)
    (cw : List String), (canonHops n m i w).1 = some cw →
    (canonHops n m i w).2 = m ∧ cw.length = w.length ∧
    (∀ j, (hjw : j < w.length) → (hjc : j < cw.length) →
      ((i + j = 0 ∨ (i + j) % 2 = 1) → cw[j] = w[j]) ∧
      (¬(i + j = 0 ∨ (i + j) % 2 = 1) → lookup2 m (w[j]) n = some (cw[j]))) := by
  intro w
  induction w with
  | nil =>
      intro m i cw h
      simp [canonHops] at h
      subst h
      exact ⟨rfl, rfl, fun j hjw _ => absurd hjw (by simp)⟩
  | cons hop rest ih =>
      intro m i cw h
      by_cases hid : i = 0 ∨ i % 2 = 1
      · rw [canonHops_cons_id n m i hop rest hid] at h ⊢
        cases hr : (canonHops n m (i + 1) rest).1 with
        | none => rw [hr] at h; simp at h
        | some c2 =>
            rw [hr] at h
            simp at h
            subst h
            obtain ⟨hst, hlen, hpt⟩ := ih m (i + 1) c2 hr
            refine ⟨hst, by simp [hlen], ?_⟩
            intro j hjw hjc
            cases j with
            | zero =>
                refine ⟨fun _ => by simp, fun hcon => absurd ?_ hcon⟩
                simpa using hid
            | succ j =>
                have harith : i + (j + 1) = (i + 1) + j := by omega
                have hjw2 : j < rest.length := by simpa using hjw
                have hjc2 : j < c2.length := by simpa using hjc
                obtain ⟨h1, h2⟩ := hpt j hjw2 hjc2
                refine ⟨fun hcond => ?_, fun hcond => ?_⟩
                · rw [harith] at hcond
                  simpa using h1 hcond
                · rw [harith] at hcond
                  simpa using h2 hcond
      · cases hl : lookup2 m hop n with
        | none =>
            rw [canonHops_cons_lookup_none n m i hop rest hid hl] at h
            simp at h
        | some lab =>
            rw [canonHops_cons_lookup_some n m i hop rest lab hid hl] at h ⊢
            cases hr : (canonHops n m (i + 1) rest).1 with
            | none => rw [hr] at h; simp at h
            | some c2 =>
                rw [hr] at h
                simp at h
                subst h
                obtain ⟨hst, hlen, hpt⟩ := ih m (i + 1) c2 hr
                refine ⟨hst, by simp [hlen], ?_⟩
                intro j hjw hjc
                cases j with
                | zero =>
                    refine ⟨fun hcond => absurd ?_ hid, fun _ => by simpa using hl⟩
                    simpa using hcond
                | succ j =>
                    have harith : i + (j + 1) = (i + 1) + j := by omega
                    have hjw2 : j < rest.length := by simpa using hjw
                    have hjc2 : j < c2.length := by simpa using hjc
                    obtain ⟨h1, h2⟩ := hpt j hjw2 hjc2
                    refine ⟨fun hcond => ?_, fun hcond => ?_⟩
                    · rw [harith] at hcond
                      simpa using h1 hcond
                    · rw [harith] at hcond
                      simpa using h2 hcond

theorem addToSet_mem (s : List (List String)) (c x : List String) :
    x ∈ addToSet s c ↔ x ∈ s ∨ x = c := by
  by_cases h : c ∈ s
  · simp only [addToSet, if_pos h]
    exact ⟨Or.inl, fun hx => hx.elim id fun he => he ▸ h⟩
  · simp [addToSet, if_neg h]

theorem addToSet_nodup {s : List (List String)} (c : List String)
    (h : s.Nodup) : (addToSet s c).Nodup := by
  by_cases hc : c ∈ s
  · simpa [addToSet, hc] using h
  · simp only [addToSet, if_neg hc]
    rw [List.nodup_append]
    exact ⟨h, List.nodup_singleton c, fun a ha hb => hc (by
      rw [List.mem_singleton] at hb
      exact hb ▸ ha)⟩

/-- Success characterization of the per-level walk loop: the table is
untouched, duplicates are collapsed, every raw walk canonicalized
successfully, and the result set holds exactly the prior elements plus the
canonical walks of this level. -/
theorem canonLevel_some (n : Nat) :
    ∀ (walks : List (List String)) (m : LabelMap) (s r : List (List String))
    (m2 : LabelMap), canonLevel n m s walks = (some r, m2) →
    m2 = m ∧ (s.Nodup → r.Nodup) ∧
    (∀ w ∈ walks, ∃ cw, (canonHops n m 0 w).1 = some cw) ∧
    (∀ x, x ∈ r ↔ x ∈ s ∨ ∃ w ∈ walks, (canonHops n m 0 w).1 = some x) := by
  intro walks
  induction walks with
  | nil =>
      intro m s r m2 h
      simp [canonLevel] at h
      obtain ⟨h1, h2⟩ := h
      subst h1
      subst h2
      exact ⟨rfl, id, by simp, by simp⟩
  | cons w ws ih =>
      intro m s r m2 h
      rw [canonLevel] at h
      cases hcw : canonHops n m 0 w with
      | mk cr m1 =>
          rw [hcw] at h
          cases cr with
          | none => simp at h
          | some cw =>
              have hfst : (canonHops n m 0 w).1 = some cw := by rw [hcw]
              have hst : (canonHops n m 0 w).2 = m := (canonHops_some n w m 0 cw hfst).1
              rw [hcw] at hst
              simp only at hst
              rw [hst] at h
              obtain ⟨hm2, hnd, hall, hmem⟩ := ih m (addToSet s cw) r m2 h
              refine ⟨hm2, fun hs => hnd (addToSet_nodup cw hs), ?_, ?_⟩
              · intro w2 hw2
                rcases List.mem_cons.mp hw2 with he | hm3
                · exact he ▸ ⟨cw, hfst⟩
                · exact hall w2 hm3
              · intro x
                rw [hmem x, addToSet_mem]
                constructor
                · rintro ((hx | he) | ⟨w2, hw2, hc⟩)
                  · exact Or.inl hx
                  · exact Or.inr ⟨w, List.mem_cons_self w ws, he ▸ hfst⟩
                  · exact Or.inr ⟨w2, List.mem_cons_of_mem _ hw2, hc⟩
                · rintro (hx | ⟨w2, hw2, hc⟩)
                  · exact Or.inl (Or.inl hx)
                  · rcases List.mem_cons.mp hw2 with he | hm3
                    · subst he
                      rw [hfst] at hc
                      exact Or.inl (Or.inr (by injection hc.symm))
                    · exact Or.inr ⟨w2, hm3, hc⟩

/-- Success characterization of the level loop of `_extract`. -/
theorem canonLevels_some (walks : List (List String)) :
    ∀ (ns : List Nat) (m : LabelMap) (s r : List (List String))
    (m2 : LabelMap), canonLevels walks m s ns = (some r, m2) →
    m2 = m ∧ (s.Nodup → r.Nodup) ∧
    (∀ n ∈ ns, ∀ w ∈ walks, ∃ cw, (canonHops n m 0 w).1 = some cw) ∧
    (∀ x, x ∈ r ↔ x ∈ s ∨ ∃ n ∈ ns, ∃ w ∈ walks,
      (canonHops n m 0 w).1 = some x) := by
  intro ns
  induction ns with
  | nil =>
      intro m s r m2 h
      simp [canonLevels] at h
      obtain ⟨h1, h2⟩ := h
      subst h1
      subst h2
      exact ⟨rfl, id, by simp, by simp⟩
  | cons n ns ih =>
      intro m s r m2 h
      rw [canonLevels] at h
      cases hcl : canonLevel n m s walks with
      | mk r1 m1 =>
          rw [hcl] at h
          cases r1 with
          | none => simp at h
          | some s1 =>
              obtain ⟨hm1, hnd1, hall1, hmem1⟩ := canonLevel_some n walks m s s1 m1 hcl
              rw [hm1] at h
              obtain ⟨hm2, hnd2, hall2, hmem2⟩ := ih m s1 r m2 h
              refine ⟨hm2, fun hs => hnd2 (hnd1 hs), ?_, ?_⟩
              · intro n2 hn2 w hw
                rcases List.mem_cons.mp hn2 with he | hm3
                · exact he ▸ hall1 w hw
                · exact hall2 n2 hm3 w hw
              · intro x
                rw [hmem2 x, hmem1 x]
                constructor
                · rintro ((hx | ⟨w, hw, hc⟩) | ⟨n2, hn2, w, hw, hc⟩)
                  · exact Or.inl hx
                  · exact Or.inr ⟨n, List.mem_cons_self n ns, w, hw, hc⟩
                  · exact Or.inr ⟨n2, List.mem_cons_of_mem _ hn2, w, hw, hc⟩
                · rintro (hx | ⟨n2, hn2, w, hw, hc⟩)
                  · exact Or.inl (Or.inl hx)
                  · rcases List.mem_cons.mp hn2 with he | hm3
                    · exact Or.inl (Or.inr ⟨w, hw, he ▸ hc⟩)
                    · exact Or.inr ⟨n2, hm3, w, hw, hc⟩

/-- Success characterization of `_extract`: the mapping returned is exactly
`{instance.name: canonical_walks}`, the set is duplicate-free, every level
`0..L` and raw walk contributed, and membership is exactly "canonical walk
of some level and some raw walk". -/
theorem wlExtract_some {m : LabelMap} {L : Nat} {walks : List (List String)}
    {inst : String} {res : List (String × List (List String))} {m2 : LabelMap}
    (h : wlExtract m L walks inst = (some res, m2)) :
    m2 = m ∧ ∃ s, res = [(inst, s)] ∧ s.Nodup ∧
    (∀ n, n ≤ L → ∀ w ∈ walks, ∃ cw, (canonHops n m 0 w).1 = some cw) ∧
    (∀ x, x ∈ s ↔ ∃ n, n ≤ L ∧ ∃ w ∈ walks,
      (canonHops n m 0 w).1 = some x) := by
  rw [wlExtract] at h
  cases hcl : canonLevels walks m [] (List.range (L + 1)) with
  | mk r1 m1 =>
      rw [hcl] at h
      cases r1 with
      | none => simp at h
      | some s =>
          simp only [Prod.mk.injEq, Option.some.injEq] at h
          obtain ⟨h1, h2⟩ := h
          obtain ⟨hm1, hnd, hall, hmem⟩ := canonLevels_some walks _ m [] s m1 hcl
          subst hm1
          refine ⟨h2.symm, s, h1.symm, hnd List.nodup_nil, ?_, ?_⟩
          · intro n hn w hw
            exact hall n (List.mem_range.mpr (by omega)) w hw
          · intro x
            rw [hmem x]
            simp [List.mem_range, Nat.lt_succ_iff]

/-! ### Claims about the canonicalizer -/

/-- C2: on a successful `_extract`, the result is returned under the
instance's name as a deduplicated set; for every refinement level
`n ≤ L` and every raw walk a canonical walk was produced and added; the
set holds exactly those canonical walks; and each canonical walk has the
raw walk's length, copies the hop name at position 0 and at odd positions,
and holds the stored level-`n` label of the hop at every even
position `> 0`. -/
theorem C2_canonical_walks_characterized
    (m : LabelMap) (L : Nat) (walks : List (List String)) (inst : String)
    (res : List (String × List (List String))) (m2 : LabelMap)
    (h : wlExtract m L walks inst = (some res, m2)) :
    ∃ s, res = [(inst, s)] ∧ s.Nodup ∧
      (∀ n, n ≤ L → ∀ w ∈ walks, ∃ cw, (canonHops n m 0 w).1 = some cw) ∧
      (∀ x, x ∈ s ↔ ∃ n, n ≤ L ∧ ∃ w ∈ walks,
        (canonHops n m 0 w).1 = some x) ∧
      (∀ n w cw, n ≤ L → w ∈ walks → (canonHops n m 0 w).1 = some cw →
        cw.length = w.length ∧
        ∀ i, (hiw : i < w.length) → (hic : i < cw.length) →
          ((i = 0 ∨ i % 2 = 1) → cw[i] = w[i]) ∧
          (0 < i → i % 2 = 0 → lookup2 m (w[i]) n = some (cw[i]))) := by
  obtain ⟨hm2, s, hres, hnd, hall, hmem⟩ := wlExtract_some h
  refine ⟨s, hres, hnd, hall, hmem, ?_⟩
  intro n w cw hn hw hc
  obtain ⟨_, hlen, hpt⟩ := canonHops_some n w m 0 cw hc
  refine ⟨hlen, ?_⟩
  intro i hiw hic
  obtain ⟨h1, h2⟩ := hpt i hiw hic
  exact ⟨fun hcond => h1 (by simpa using hcond),
    fun hpos heven => h2 (by omega)⟩

/-- Closed witness for C2: one raw walk, levels 0 and 1, over the concrete
table `mW`. -/
theorem C2_canonical_walks_characterized_witness :
    ∃ s, ([("a", [["a", "p", "a"], ["a", "p", "x"]])] :
        List (String × List (List String))) = [("a", s)] ∧ s.Nodup ∧
      (∀ n, n ≤ 1 → ∀ w ∈ [["a", "p", "a"]], ∃ cw,
        (canonHops n mW 0 w).1 = some cw) ∧
      (∀ x, x ∈ s ↔ ∃ n, n ≤ 1 ∧ ∃ w ∈ [["a", "p", "a"]],
        (canonHops n mW 0 w).1 = some x) ∧
      (∀ n w cw, n ≤ 1 → w ∈ [["a", "p", "a"]] →
        (canonHops n mW 0 w).1 = some cw →
        cw.length = w.length ∧
        ∀ i, (hiw : i < w.length) → (hic : i < cw.length) →
          ((i = 0 ∨ i % 2 = 1) → cw[i] = w[i]) ∧
          (0 < i → i % 2 = 0 → lookup2 mW (w[i]) n = some (cw[i]))) :=
  C2_canonical_walks_characterized mW 1 [["a", "p", "a"]] "a"
    [("a", [["a", "p", "a"], ["a", "p", "x"]])] mW (by decide)

/-- C8: requesting a stored label for a vertex/level pair absent from the
Label Table during canonicalization fails: if the hop at even position 2
has no stored label at some level `n ≤ L`, `_extract` raises (returns no
mapping at all) instead of silently substituting a default. -/
theorem C8_absent_label_lookup_fails
    (m : LabelMap) (L : Nat) (inst w0 w1 name : String) (n : Nat)
    (hn : n ≤ L) (habs : lookup2 m name n = none) :
    (wlExtract m L [[w0, w1, name]] inst).1 = none := by
  cases hres : (wlExtract m L [[w0, w1, name]] inst).1 with
  | none => rfl
  | some res =>
      have hpair : wlExtract m L [[w0, w1, name]] inst =
          (some res, (wlExtract m L [[w0, w1, name]] inst).2) := by
        rw [← hres]
      obtain ⟨_, s, _, _, hall, _⟩ := wlExtract_some hpair
      obtain ⟨cw, hcw⟩ := hall n hn [w0, w1, name] (by simp)
      obtain ⟨_, hlen, hpt⟩ := canonHops_some n _ m 0 cw hcw
      have h2 := (hpt 2 (by simp) (by simp [hlen])).2 (by omega)
      have hname : ([w0, w1, name] : List String)[2] = name := rfl
      rw [hname, habs] at h2
      exact Option.noConfusion h2

/-- Closed witness for C8: the empty table rejects the lookup. -/
theorem C8_absent_label_lookup_fails_witness :
    (wlExtract ([] : LabelMap) 0 [["a", "p", "x"]] "i").1 = none :=
  C8_absent_label_lookup_fails [] 0 "i" "a" "p" "x" 0 (by decide) (by decide)

/-- C9: every canonical walk in a successful `_extract` result has the same
length as the raw walk it was derived from, and a raw walk of length 1
canonicalizes, at every refinement level, to exactly the root's name with
the table untouched (identity substitution at position 0). -/
theorem C9_canonical_walk_length_invariant
    (m : LabelMap) (L : Nat) (walks : List (List String)) (inst : String)
    (res : List (String × List (List String))) (m2 : LabelMap)
    (h : wlExtract m L walks inst = (some res, m2)) :
    (∃ s, res = [(inst, s)] ∧
      ∀ cw ∈ s, ∃ n w, n ≤ L ∧ w ∈ walks ∧
        (canonHops n m 0 w).1 = some cw ∧ cw.length = w.length) ∧
    (∀ n hop, canonHops n m 0 [hop] = (some [hop], m)) := by
  obtain ⟨hm2, s, hres, hnd, hall, hmem⟩ := wlExtract_some h
  refine ⟨⟨s, hres, ?_⟩, ?_⟩
  · intro cw hcw
    obtain ⟨n, hn, w, hw, hc⟩ := (hmem cw).mp hcw
    exact ⟨n, w, hn, hw, hc, (canonHops_some n w m 0 cw hc).2.1⟩
  · intro n hop
    rw [canonHops_cons_id n m 0 hop [] (Or.inl rfl)]
    rfl

/-- Closed witness for C9 on the concrete table `mW`. -/
theorem C9_canonical_walk_length_invariant_witness :
    (∃ s, ([("a", [["a", "p", "a"], ["a", "p", "x"]])] :
        List (String × List (List String))) = [("a", s)] ∧
      ∀ cw ∈ s, ∃ n w, n ≤ 1 ∧ w ∈ [["a", "p", "a"]] ∧
        (canonHops n mW 0 w).1 = some cw ∧ cw.length = w.length) ∧
    (∀ n hop, canonHops n mW 0 [hop] = (some [hop], mW)) :=
  C9_canonical_walk_length_invariant mW 1 [["a", "p", "a"]] "a"
    [("a", [["a", "p", "a"], ["a", "p", "x"]])] mW (by decide)

/-- C10: when canonicalization hits, at even position 2, a vertex name with
no row in the Label Table, the `defaultdict` access inserts a fresh empty
row before the level lookup raises: `_extract` fails, yet the table
observed afterwards differs from the table before the call by exactly that
new empty row. -/
theorem C10_failed_lookup_mutates_table
    (m : LabelMap) (L : Nat) (w0 w1 name inst : String)
    (habs : dget m name = none) :
    wlExtract m L [[w0, w1, name]] inst = (none, dset m name []) ∧
    dget (dset m name []) name = some [] ∧
    dset m name [] ≠ m := by
  have hl2 : lookup2 m name 0 = none := by
    unfold lookup2
    rw [habs]
    rfl
  have hch : canonHops 0 m 0 [w0, w1, name] = (none, dset m name []) := by
    rw [canonHops_cons_id 0 m 0 w0 [w1, name] (Or.inl rfl),
      canonHops_cons_id 0 m 1 w1 [name] (Or.inr rfl),
      canonHops_cons_lookup_none 0 m 2 name [] (by omega) hl2,
      lmGet_absent 0 habs]
    rfl
  refine ⟨?_, dget_dset_self m name [], ?_⟩
  · unfold wlExtract
    rw [List.range_succ_eq_map, canonLevels, canonLevel, hch]
  · intro heq
    have h2 := dget_dset_self m name []
    rw [heq, habs] at h2
    exact Option.noConfusion h2

/-- Closed witness for C10: a table holding only `"b"` gains an empty row
for `"x"` from the failed call. -/
theorem C10_failed_lookup_mutates_table_witness :
    wlExtract [("b", [(0, "b")])] 4 [["a", "p", "x"]] "i" =
      (none, dset [("b", [(0, "b")])] "x" []) ∧
    dget (dset [("b", [(0, "b")])] "x" []) "x" = some [] ∧
    dset [("b", [(0, "b")])] "x" [] ≠ [("b", [(0, "b")])] :=
  C10_failed_lookup_mutates_table [("b", [(0, "b")])] 4 "a" "p" "x" "i"
    (by decide)

end PyRDF2Vec
